import Mathlib

/-!
Verification of the minigo inference dispatch layer: a shallow embedding of
the feature encoder (`cc/dual_net/dual_net.cc`), the batching scheduler
(`batching_dual_net.cc`, the variant taking one feature vector per
submission), the sibling `batching_service.cc` submission check, and the
TensorFlow worker's fixed-size input tensor (`tf_dual_net.cc`), together
with theorems about the specified properties.
-/

namespace Minigo

/-! ## Board constants

`kN` is defined in `cc/constants.h`, which is outside the sources at hand;
the specification's end-to-end scenarios fix the board side at 9, which we
adopt. The remaining constants mirror `DualNet` in `cc/dual_net/dual_net.h`.
-/

/-- Modelled from the spec: board side `N`; `cc/constants.h` is not among the
available sources, and the spec's literal scenarios use `N = 9`. -/
def kN : Nat := 9

/-- `DualNet::kMoveHistory`: size of move history in the stone features. -/
def kMoveHistory : Nat := 8

/-- `DualNet::kNumStoneFeatures = kMoveHistory * 2 + 1`. -/
def kNumStoneFeatures : Nat := kMoveHistory * 2 + 1

/-- `DualNet::kPlayerFeature = kMoveHistory * 2`: index of the per-stone
feature plane that says whether black is to play. -/
def kPlayerFeature : Nat := kMoveHistory * 2

/-- `DualNet::kNumBoardFeatures = kN * kN * kNumStoneFeatures`. -/
def kNumBoardFeatures : Nat := kN * kN * kNumStoneFeatures

/-- Point colors as in `cc/color.h`: empty, black or white. -/
inductive Color where
  | empty : Color
  | black : Color
  | white : Color
deriving DecidableEq, Repr

/-- `OtherColor`: the opposing color. Only called on black or white. -/
def otherColor : Color → Color
  | Color.black => Color.white
  | Color.white => Color.black
  | Color.empty => Color.empty

/-- A `Position::Stones` snapshot, viewed as the per-point color sequence the
encoder reads (the source walks `history[j]->data()` point by point). -/
abbrev Stones := List Color

/-- The caller-provided `BoardFeatures` output array, modelled as a map from
flat index to the written value. Feature values are only ever the literals
0 and 1, so we model the floats by naturals. -/
abbrev Buffer := Nat → Nat

/-- A single store `dst[i] = v` into the features array. -/
def writeAt (buf : Buffer) (i v : Nat) : Buffer :=
  fun k => if k = i then v else buf k

/-! ## `DualNet::SetFeatures` (`cc/dual_net/dual_net.cc` lines 39-79)

Each of the three `while (dst < end)` loops in the source visits every board
point exactly once with pointer stride `kNumStoneFeatures`, starting at plane
offset `2 * j` (or `kPlayerFeature`); iteration `p` of a loop therefore
writes flat indices `p * kNumStoneFeatures + planeOffset`. We render each
loop as a recursion over the number of points already processed.
-/

/-- The first loop body for history ply `j`: writes planes `2*j` and
`2*j + 1` for points `0 .. n-1` from the snapshot's colors (point `n - 1`
written last, as in the source's ascending pointer walk). -/
def writePly (stones : Stones) (my their : Color) (j : Nat) (buf : Buffer) :
    Nat → Buffer
  | 0 => buf
  | p + 1 =>
    let c := stones.getD p Color.empty
    writeAt
      (writeAt (writePly stones my their j buf p)
        (p * kNumStoneFeatures + 2 * j) (if c = my then 1 else 0))
      (p * kNumStoneFeatures + 2 * j + 1) (if c = their then 1 else 0)

/-- The padding loop body for ply `j`: writes zeros into planes `2*j` and
`2*j + 1` for points `0 .. n-1`. -/
def writePad (j : Nat) (buf : Buffer) : Nat → Buffer
  | 0 => buf
  | p + 1 =>
    writeAt (writeAt (writePad j buf p) (p * kNumStoneFeatures + 2 * j) 0)
      (p * kNumStoneFeatures + 2 * j + 1) 0

/-- The final loop: writes the to-play feature into plane `kPlayerFeature`
for points `0 .. n-1`. -/
def writePlayer (v : Nat) (buf : Buffer) : Nat → Buffer
  | 0 => buf
  | p + 1 => writeAt (writePlayer v buf p) (p * kNumStoneFeatures + kPlayerFeature) v

/-- The `for (j = 0; j < history.size(); ++j)` loop: writes one pair of
planes per history snapshot, starting at ply index `j`. -/
def writeHistory (my their : Color) : List Stones → Nat → Buffer → Buffer
  | [], _, buf => buf
  | s :: rest, j, buf =>
      writeHistory my their rest (j + 1) (writePly s my their j buf (kN * kN))

/-- The `for (; j < kMoveHistory; ++j)` padding loop. -/
def writePadsFrom (j : Nat) (buf : Buffer) : Buffer :=
  if j < kMoveHistory then writePadsFrom (j + 1) (writePad j buf (kN * kN))
  else buf
termination_by kMoveHistory - j
decreasing_by omega

/-- `DualNet::SetFeatures`. The source's `MG_CHECK(history.size() <=
kMoveHistory)` aborts the process on violation, modelled by `none`; there is
no other check. On success the updated features buffer is returned. -/
def setFeatures (history : List Stones) (toPlay : Color) (features : Buffer) :
    Option Buffer :=
  if history.length ≤ kMoveHistory then
    let myColor := toPlay
    let theirColor := otherColor toPlay
    let buf1 := writeHistory myColor theirColor history 0 features
    let buf2 := writePadsFrom history.length buf1
    let toPlayFeature : Nat := if toPlay = Color.black then 1 else 0
    some (writePlayer toPlayFeature buf2 (kN * kN))
  else
    none

/-- An empty 9×9 snapshot. -/
def emptyBoard : Stones := List.replicate (kN * kN) Color.empty

/-- The value `SetFeatures` leaves at point `p`, per-stone plane `k`: the
to-play bit in plane `kPlayerFeature`; for plane `2*j` (resp. `2*j + 1`)
a 1 exactly when snapshot `j` holds a stone of the side to play (resp. of
the opponent), with plies beyond the history zero. Proved below to agree
with `setFeatures`; it mentions no buffer, which is what makes the
buffer-independence claims provable. -/
def encodedValue (history : List Stones) (toPlay : Color) (p k : Nat) : Nat :=
  if k = kPlayerFeature then (if toPlay = Color.black then 1 else 0)
  else if k / 2 < history.length then
    (if (history.getD (k / 2) []).getD p Color.empty
        = (if k % 2 = 0 then toPlay else otherColor toPlay) then 1 else 0)
  else 0

/-! ## The batching scheduler (`batching_dual_net.cc`, single-vector variant)

The embedding is polymorphic in the payload types: `F` stands for one
`DualNet::BoardFeatures` array, `P` for one `DualNet::Policy`, `V` for one
value float. The scheduler never inspects payloads; it only moves, counts
and slices them.

The per-request promise is modelled by returning, from each batch run, the
list of `Result`s fulfilled for the popped requests, in pop order. The
`clientId` field is ghost state used only to phrase distinctness of the
submitting clients; no scheduler operation reads it.
-/

/-- `DualNet::Result`: the policies and values for one submission. -/
structure NetResult (P V : Type) where
  policies : List P
  values : List V
  model : String
deriving Repr, DecidableEq

/-- `BatchingService::InferenceData`: one queued submission. The `promise`
member is represented by the delivery position instead; `clientId` is ghost
annotation identifying the submitting client. -/
structure InferenceData (F : Type) where
  clientId : Nat
  features : List F
deriving Repr, DecidableEq

/-- The scheduler state guarded by `mutex_`: client census, pending queue
(front at the list head), and the two feature counters. `numRuns` counts
dispatched batches. -/
structure SchedulerState (F : Type) where
  numClients : Nat
  inferenceQueue : List (InferenceData F)
  queueCounter : Nat
  runCounter : Nat
  numRuns : Nat
deriving Repr, DecidableEq

/-- Total feature count of the queued submissions. -/
def queueFeatures {F : Type} (q : List (InferenceData F)) : Nat :=
  (q.map (fun d => d.features.length)).sum

/-- The enqueue half of `BatchingService::RunMany` (`batching_dual_net.cc`
variant, `src/unnamed/part_000` lines 39-53): `MG_CHECK(num_features <=
FLAGS_batch_size)` aborts on an oversize submission (`none`); otherwise the
features are counted into `queue_counter_` and pushed. -/
def runManyEnqueue {F : Type} (batchSize : Nat) (clientId : Nat)
    (features : List F) (s : SchedulerState F) : Option (SchedulerState F) :=
  if features.length ≤ batchSize then
    some { s with
      queueCounter := s.queueCounter + features.length
      inferenceQueue := s.inferenceQueue ++ [⟨clientId, features⟩] }
  else
    none

/-- The enqueue half of `BatchingService::RunMany` in the sibling
`cc/dual_net/batching_service.cc` (line 64), whose check reads
`MG_CHECK(num_features >= static_cast<size_t>(FLAGS_batch_size))`. -/
def serviceRunManyEnqueue {F : Type} (batchSize : Nat) (clientId : Nat)
    (features : List F) (s : SchedulerState F) : Option (SchedulerState F) :=
  if batchSize ≤ features.length then
    some { s with
      queueCounter := s.queueCounter + features.length
      inferenceQueue := s.inferenceQueue ++ [⟨clientId, features⟩] }
  else
    none

/-- The pop loop of `BatchingService::RunBatch` (`src/unnamed/part_000`
lines 80-96): starting from the remaining slot count, pop whole requests off
the queue head while they fit; stop at the first head request that does not
fit (or when the slot is exhausted). Returns the popped requests in order
and the remaining queue. (With a non-empty slot and an empty queue, the
source's `front()` would be undefined; the scheduler invariant rules that
state out, and the model simply stops.) -/
def popRequests {F : Type} : Nat → List (InferenceData F) →
    List (InferenceData F) × List (InferenceData F)
  | _, [] => ([], [])
  | batchSize, r :: rest =>
    if batchSize = 0 then ([], r :: rest)
    else if r.features.length > batchSize then ([], r :: rest)
    else
      let out := popRequests (batchSize - r.features.length) rest
      (r :: out.1, out.2)

/-- The fan-out loop at `src/unnamed/part_000` lines 101-113: walk the
engine's batch-wide policy/value sequences with two cursors and hand each
popped request the next `num_features` entries of each. -/
def sliceResults {P V : Type} (model : String) :
    List Nat → List P → List V → List (NetResult P V)
  | [], _, _ => []
  | n :: ns, ps, vs =>
    ⟨ps.take n, vs.take n, model⟩ :: sliceResults model ns (ps.drop n) (vs.drop n)

/-- What one `RunBatch` call produces: the updated scheduler state, the flat
feature list passed to `dual_net_->RunMany`, and the per-request results set
on the popped requests' promises, in pop order. -/
structure BatchOutcome (F P V : Type) where
  state : SchedulerState F
  dispatchedFeatures : List F
  deliveries : List (NetResult P V)
deriving Repr

/-- `BatchingService::RunBatch` (`src/unnamed/part_000` lines 73-117),
parametrized by the inner engine `net` (`dual_net_->RunMany`): pop the
fitting prefix, flatten its features into one batch, run the engine, slice
its result back per request, and count the batch in `num_runs_`. -/
def runBatch {F P V : Type} (net : List F → NetResult P V) (batchSize : Nat)
    (s : SchedulerState F) : BatchOutcome F P V :=
  let popped := (popRequests batchSize s.inferenceQueue).1
  let rest := (popRequests batchSize s.inferenceQueue).2
  let featureCounts := popped.map (fun d => d.features.length)
  let features := (popped.map (fun d => d.features)).flatten
  let result := net features
  { state := { s with
      inferenceQueue := rest
      runCounter := s.runCounter + featureCounts.sum
      numRuns := s.numRuns + 1 }
    dispatchedFeatures := features
    deliveries := sliceResults result.model featureCounts result.policies result.values }

/-- `BatchingService::MaybeRunBatches` (`src/unnamed/part_000` lines 59-71):
as long as `min(queue_counter_ - run_counter_, FLAGS_batch_size)` is
non-zero, either stop because the batch would be short while some counted
client has nothing queued, or run one batch and loop. `fuel` bounds the
number of loop iterations (the source's loop terminates because every
`RunBatch` pops at least one request). All deliveries are concatenated in
dispatch order. -/
def maybeRunBatches {F P V : Type} (net : List F → NetResult P V)
    (batchSize : Nat) : Nat → SchedulerState F →
    SchedulerState F × List (NetResult P V)
  | 0, s => (s, [])
  | fuel + 1, s =>
    let curBatch := min (s.queueCounter - s.runCounter) batchSize
    if curBatch = 0 then (s, [])
    else if curBatch < batchSize ∧ s.inferenceQueue.length < s.numClients then
      (s, [])
    else
      let outcome := runBatch net curBatch s
      let next := maybeRunBatches net batchSize fuel outcome.state
      (next.1, outcome.deliveries ++ next.2)

/-- Invariant (I1) on the scheduler counters: `run_counter_ ≤ queue_counter_`
and their difference is the feature count still waiting in the queue. -/
def schedInvariant {F : Type} (s : SchedulerState F) : Prop :=
  s.runCounter ≤ s.queueCounter ∧
    s.queueCounter - s.runCounter = queueFeatures s.inferenceQueue

/-- Number of distinct clients with at least one request in the queue,
computed from the ghost client ids. -/
def pendingClients {F : Type} (q : List (InferenceData F)) : Nat :=
  (q.map (fun d => d.clientId)).dedup.length

/-! ## The TensorFlow worker (`cc/dual_net/tf_dual_net.cc` lines 43-112)

`TfWorker` owns a pre-allocated input tensor of batch dimension exactly
`FLAGS_batch_size`; `RunMany` copies the (possibly shorter) dispatched batch
over its front, leaving whatever was there before in the tail, runs the
session on the whole tensor, and slices only the leading outputs back. -/

/-- `std::copy` of the dispatched features onto the front of the worker's
input tensor; the tail keeps its previous contents. -/
def writeFront {F : Type} (xs tensor : List F) : List F :=
  xs ++ tensor.drop xs.length

/-- Per-vector result slicing as in `TfWorker::RunMany` lines 92-103: the
same two-cursor walk as the scheduler's fan-out, without a model name. -/
def sliceTf {P V : Type} : List Nat → List P → List V → List (List P × List V)
  | [], _, _ => []
  | n :: ns, ps, vs => (ps.take n, vs.take n) :: sliceTf ns (ps.drop n) (vs.drop n)

/-- `TfWorker::RunMany`, parametrized by the session run (`session_->Run`),
a function from the full `[B, N, N, kNumStoneFeatures]` input tensor to the
`[B, kNumMoves]` policy and `[B]` value outputs. Returns the tensor contents
actually executed and the per-vector results. -/
def tfWorkerRunMany {F P V : Type} (session : List F → List P × List V)
    (inputTensor : List F) (featureVecs : List (List F)) :
    List F × List (List P × List V) :=
  let featureCounts := featureVecs.map List.length
  let tensorNow := writeFront featureVecs.flatten inputTensor
  let outputs := session tensorNow
  (tensorNow, sliceTf featureCounts outputs.1 outputs.2)

/-! ## Concrete fixtures used by the witness theorems -/

/-- An identity-shaped engine: one policy and one value per feature. -/
def exNet : List Nat → NetResult Nat Nat := fun fs => ⟨fs, fs, "m"⟩

/-- Two queued submissions of sizes 1 and 2 from clients 0 and 1. -/
def exQueue : List (InferenceData Nat) := [⟨0, [1]⟩, ⟨1, [2, 3]⟩]

/-- A consistent scheduler state holding `exQueue`. -/
def exState : SchedulerState Nat := ⟨1, exQueue, 3, 0, 0⟩

/-- `exState` after enqueueing a size-1 submission from client 2. -/
def exState2 : SchedulerState Nat := ⟨1, exQueue ++ [⟨2, [7]⟩], 4, 0, 0⟩

/-- Two counted clients but only one pending submission of 3 features. -/
def exWaitState : SchedulerState Nat := ⟨2, [⟨0, [1, 2, 3]⟩], 3, 0, 0⟩

/-- One client whose single 3-feature submission cannot fill a batch of 4. -/
def exShortState : SchedulerState Nat := ⟨1, [⟨0, [10, 11, 12]⟩], 3, 0, 0⟩

/-- A session run echoing the input tensor as both outputs. -/
def exSession : List Nat → List Nat × List Nat := fun t => (t, t)

/-- A session run agreeing with `exSession` on the first output entry only. -/
def exSession2 : List Nat → List Nat × List Nat :=
  fun t => (t.take 1 ++ [99], t.take 1 ++ [77])

/-! ## Pointwise characterization of the encoder's write loops -/

lemma writeAt_self (buf : Buffer) (i v : Nat) : writeAt buf i v i = v := by
  simp [writeAt]

lemma writeAt_other (buf : Buffer) (i v k : Nat) (h : k ≠ i) :
    writeAt buf i v k = buf k := by
  simp [writeAt, h]

lemma writePly_get_ne (stones : Stones) (my their : Color) (j : Nat)
    (buf : Buffer) (n i : Nat)
    (h : ∀ p < n, i ≠ p * kNumStoneFeatures + 2 * j ∧
      i ≠ p * kNumStoneFeatures + 2 * j + 1) :
    writePly stones my their j buf n i = buf i := by
  induction n with
  | zero => rfl
  | succ q ih =>
    have hq := h q (Nat.lt_succ_self q)
    simp only [writePly]
    rw [writeAt_other _ _ _ _ hq.2, writeAt_other _ _ _ _ hq.1]
    exact ih fun p hp => h p (by omega)

lemma writePly_get_my (stones : Stones) (my their : Color) (j : Nat)
    (buf : Buffer) (n p : Nat) (hp : p < n) :
    writePly stones my their j buf n (p * kNumStoneFeatures + 2 * j)
      = (if stones.getD p Color.empty = my then 1 else 0) := by
  induction n with
  | zero => omega
  | succ q ih =>
    simp only [writePly]
    by_cases hpq : p = q
    · subst hpq
      rw [writeAt_other _ _ _ _ (by omega), writeAt_self]
    · rw [writeAt_other _ _ _ _ (by simp only [kNumStoneFeatures, kMoveHistory]; omega),
        writeAt_other _ _ _ _ (by simp only [kNumStoneFeatures, kMoveHistory]; omega)]
      exact ih (by omega)

lemma writePly_get_their (stones : Stones) (my their : Color) (j : Nat)
    (buf : Buffer) (n p : Nat) (hp : p < n) :
    writePly stones my their j buf n (p * kNumStoneFeatures + 2 * j + 1)
      = (if stones.getD p Color.empty = their then 1 else 0) := by
  induction n with
  | zero => omega
  | succ q ih =>
    simp only [writePly]
    by_cases hpq : p = q
    · subst hpq
      rw [writeAt_self]
    · rw [writeAt_other _ _ _ _ (by simp only [kNumStoneFeatures, kMoveHistory]; omega),
        writeAt_other _ _ _ _ (by simp only [kNumStoneFeatures, kMoveHistory]; omega)]
      exact ih (by omega)

lemma writePad_get_ne (j : Nat) (buf : Buffer) (n i : Nat)
    (h : ∀ p < n, i ≠ p * kNumStoneFeatures + 2 * j ∧
      i ≠ p * kNumStoneFeatures + 2 * j + 1) :
    writePad j buf n i = buf i := by
  induction n with
  | zero => rfl
  | succ q ih =>
    have hq := h q (Nat.lt_succ_self q)
    simp only [writePad]
    rw [writeAt_other _ _ _ _ hq.2, writeAt_other _ _ _ _ hq.1]
    exact ih fun p hp => h p (by omega)

lemma writePad_get_my (j : Nat) (buf : Buffer) (n p : Nat) (hp : p < n) :
    writePad j buf n (p * kNumStoneFeatures + 2 * j) = 0 := by
  induction n with
  | zero => omega
  | succ q ih =>
    simp only [writePad]
    by_cases hpq : p = q
    · subst hpq
      rw [writeAt_other _ _ _ _ (by omega), writeAt_self]
    · rw [writeAt_other _ _ _ _ (by simp only [kNumStoneFeatures, kMoveHistory]; omega),
        writeAt_other _ _ _ _ (by simp only [kNumStoneFeatures, kMoveHistory]; omega)]
      exact ih (by omega)

lemma writePad_get_their (j : Nat) (buf : Buffer) (n p : Nat) (hp : p < n) :
    writePad j buf n (p * kNumStoneFeatures + 2 * j + 1) = 0 := by
  induction n with
  | zero => omega
  | succ q ih =>
    simp only [writePad]
    by_cases hpq : p = q
    · subst hpq
      rw [writeAt_self]
    · rw [writeAt_other _ _ _ _ (by simp only [kNumStoneFeatures, kMoveHistory]; omega),
        writeAt_other _ _ _ _ (by simp only [kNumStoneFeatures, kMoveHistory]; omega)]
      exact ih (by omega)

lemma writePlayer_get_ne (v : Nat) (buf : Buffer) (n i : Nat)
    (h : ∀ p < n, i ≠ p * kNumStoneFeatures + kPlayerFeature) :
    writePlayer v buf n i = buf i := by
  induction n with
  | zero => rfl
  | succ q ih =>
    simp only [writePlayer]
    rw [writeAt_other _ _ _ _ (h q (Nat.lt_succ_self q))]
    exact ih fun p hp => h p (by omega)

lemma writePlayer_get (v : Nat) (buf : Buffer) (n p : Nat) (hp : p < n) :
    writePlayer v buf n (p * kNumStoneFeatures + kPlayerFeature) = v := by
  induction n with
  | zero => omega
  | succ q ih =>
    simp only [writePlayer]
    by_cases hpq : p = q
    · subst hpq
      rw [writeAt_self]
    · rw [writeAt_other _ _ _ _
        (by simp only [kNumStoneFeatures, kPlayerFeature, kMoveHistory]; omega)]
      exact ih (by omega)

lemma writeHistory_get_ne (my their : Color) (hist : List Stones) (j0 : Nat)
    (buf : Buffer) (i : Nat)
    (h : ∀ p < kN * kN, ∀ jj, j0 ≤ jj → jj < j0 + hist.length →
      i ≠ p * kNumStoneFeatures + 2 * jj ∧
        i ≠ p * kNumStoneFeatures + 2 * jj + 1) :
    writeHistory my their hist j0 buf i = buf i := by
  induction hist generalizing j0 buf with
  | nil => rfl
  | cons s rest ih =>
    simp only [writeHistory]
    rw [ih (j0 + 1) _ fun p hp jj h1 h2 =>
      h p hp jj (by omega) (by simp only [List.length_cons]; omega)]
    exact writePly_get_ne _ _ _ _ _ _ _ fun p hp =>
      h p hp j0 (Nat.le_refl j0) (by simp only [List.length_cons]; omega)

lemma writeHistory_get_my (my their : Color) (hist : List Stones)
    (j0 jIdx p : Nat) (buf : Buffer) (hp : p < kN * kN)
    (hlen : j0 + hist.length ≤ kMoveHistory) (hj : jIdx < hist.length) :
    writeHistory my their hist j0 buf
        (p * kNumStoneFeatures + 2 * (j0 + jIdx))
      = (if (hist.getD jIdx []).getD p Color.empty = my then 1 else 0) := by
  induction hist generalizing j0 jIdx buf with
  | nil => simp at hj
  | cons s rest ih =>
    simp only [writeHistory]
    cases jIdx with
    | zero =>
      rw [writeHistory_get_ne my their rest (j0 + 1) _ _ fun q hq jj h1 h2 => by
        constructor <;>
          · simp only [kNumStoneFeatures, kMoveHistory, kN] at *
            simp only [List.length_cons] at hlen
            omega]
      simpa using writePly_get_my s my their j0 buf (kN * kN) p hp
    | succ k =>
      have := ih (j0 + 1) k (writePly s my their j0 buf (kN * kN))
        (by simp only [List.length_cons] at hlen; omega)
        (by simp only [List.length_cons] at hj; omega)
      simpa [show j0 + 1 + k = j0 + (k + 1) by omega] using this

lemma writeHistory_get_their (my their : Color) (hist : List Stones)
    (j0 jIdx p : Nat) (buf : Buffer) (hp : p < kN * kN)
    (hlen : j0 + hist.length ≤ kMoveHistory) (hj : jIdx < hist.length) :
    writeHistory my their hist j0 buf
        (p * kNumStoneFeatures + 2 * (j0 + jIdx) + 1)
      = (if (hist.getD jIdx []).getD p Color.empty = their then 1 else 0) := by
  induction hist generalizing j0 jIdx buf with
  | nil => simp at hj
  | cons s rest ih =>
    simp only [writeHistory]
    cases jIdx with
    | zero =>
      rw [writeHistory_get_ne my their rest (j0 + 1) _ _ fun q hq jj h1 h2 => by
        constructor <;>
          · simp only [kNumStoneFeatures, kMoveHistory, kN] at *
            simp only [List.length_cons] at hlen
            omega]
      simpa using writePly_get_their s my their j0 buf (kN * kN) p hp
    | succ k =>
      have := ih (j0 + 1) k (writePly s my their j0 buf (kN * kN))
        (by simp only [List.length_cons] at hlen; omega)
        (by simp only [List.length_cons] at hj; omega)
      simpa [show j0 + 1 + k = j0 + (k + 1) by omega] using this

lemma writePadsFrom_get_ne (j : Nat) (buf : Buffer) (i : Nat)
    (h : ∀ p < kN * kN, ∀ jj, j ≤ jj → jj < kMoveHistory →
      i ≠ p * kNumStoneFeatures + 2 * jj ∧
        i ≠ p * kNumStoneFeatures + 2 * jj + 1) :
    writePadsFrom j buf i = buf i := by
  rw [writePadsFrom]
  split
  · rw [writePadsFrom_get_ne (j + 1) _ i fun p hp jj h1 h2 =>
      h p hp jj (by omega) h2]
    exact writePad_get_ne _ _ _ _ fun p hp =>
      h p hp j (Nat.le_refl j) (by assumption)
  · rfl
termination_by kMoveHistory - j
decreasing_by omega

lemma writePadsFrom_get_my (j : Nat) (buf : Buffer) (p jj : Nat)
    (hp : p < kN * kN) (h1 : j ≤ jj) (h2 : jj < kMoveHistory) :
    writePadsFrom j buf (p * kNumStoneFeatures + 2 * jj) = 0 := by
  rw [writePadsFrom]
  split
  · by_cases hj : jj = j
    · subst hj
      rw [writePadsFrom_get_ne (jj + 1) _ _ fun q hq j' hj1 hj2 => by
        constructor <;> (simp only [kNumStoneFeatures, kMoveHistory, kN] at *; omega)]
      exact writePad_get_my jj _ _ p hp
    · exact writePadsFrom_get_my (j + 1) _ p jj hp (by omega) h2
  · omega
termination_by kMoveHistory - j
decreasing_by omega

lemma writePadsFrom_get_their (j : Nat) (buf : Buffer) (p jj : Nat)
    (hp : p < kN * kN) (h1 : j ≤ jj) (h2 : jj < kMoveHistory) :
    writePadsFrom j buf (p * kNumStoneFeatures + 2 * jj + 1) = 0 := by
  rw [writePadsFrom]
  split
  · by_cases hj : jj = j
    · subst hj
      rw [writePadsFrom_get_ne (jj + 1) _ _ fun q hq j' hj1 hj2 => by
        constructor <;> (simp only [kNumStoneFeatures, kMoveHistory, kN] at *; omega)]
      exact writePad_get_their jj _ _ p hp
    · exact writePadsFrom_get_their (j + 1) _ p jj hp (by omega) h2
  · omega
termination_by kMoveHistory - j
decreasing_by omega

lemma setFeatures_length_le {hist : List Stones} {toPlay : Color}
    {buf out : Buffer} (hout : setFeatures hist toPlay buf = some out) :
    hist.length ≤ kMoveHistory := by
  by_contra hcon
  simp [setFeatures, hcon] at hout

lemma setFeatures_some_eq {hist : List Stones} {toPlay : Color}
    {buf out : Buffer} (hout : setFeatures hist toPlay buf = some out) :
    out = writePlayer (if toPlay = Color.black then 1 else 0)
      (writePadsFrom hist.length
        (writeHistory toPlay (otherColor toPlay) hist 0 buf)) (kN * kN) := by
  have hlen := setFeatures_length_le hout
  simp only [setFeatures, if_pos hlen, Option.some.injEq] at hout
  exact hout.symm

/-- The value `setFeatures` leaves at point `p`, plane `k` is exactly
`encodedValue`, independent of the initial buffer contents. -/
lemma setFeatures_value {hist : List Stones} {toPlay : Color}
    {buf out : Buffer} (hout : setFeatures hist toPlay buf = some out)
    (p k : Nat) (hp : p < kN * kN) (hk : k < kNumStoneFeatures) :
    out (p * kNumStoneFeatures + k) = encodedValue hist toPlay p k := by
  have hlen := setFeatures_length_le hout
  rw [setFeatures_some_eq hout]
  by_cases hk16 : k = kPlayerFeature
  · subst hk16
    rw [writePlayer_get _ _ _ p hp]
    simp [encodedValue]
  · have hk' : k < kPlayerFeature := by
      simp only [kNumStoneFeatures, kPlayerFeature, kMoveHistory] at hk hk16 ⊢
      omega
    obtain ⟨j, r, hr, hkjr⟩ : ∃ j r, r < 2 ∧ k = 2 * j + r :=
      ⟨k / 2, k % 2, Nat.mod_lt _ (by omega), by omega⟩
    have hj8 : j < kMoveHistory := by
      simp only [kPlayerFeature, kMoveHistory] at hk' ⊢
      omega
    have hdiv : k / 2 = j := by omega
    have hmod : k % 2 = r := by omega
    rw [writePlayer_get_ne _ _ _ _ fun q hq => by
      simp only [kNumStoneFeatures, kPlayerFeature, kMoveHistory, kN] at *
      omega]
    by_cases hjh : j < hist.length
    · rw [writePadsFrom_get_ne _ _ _ fun q hq jj h1 h2 => by
        constructor <;>
          · simp only [kNumStoneFeatures, kMoveHistory, kN] at *
            omega]
      rcases (by omega : r = 0 ∨ r = 1) with hr0 | hr1
      · subst hr0
        rw [show p * kNumStoneFeatures + k
            = p * kNumStoneFeatures + 2 * (0 + j) from by omega]
        rw [writeHistory_get_my toPlay (otherColor toPlay) hist 0 j p buf hp
          (by omega) hjh]
        simp [encodedValue, hk16, hjh, hdiv, hmod]
      · subst hr1
        rw [show p * kNumStoneFeatures + k
            = p * kNumStoneFeatures + 2 * (0 + j) + 1 from by omega]
        rw [writeHistory_get_their toPlay (otherColor toPlay) hist 0 j p buf hp
          (by omega) hjh]
        simp [encodedValue, hk16, hjh, hdiv, hmod]
    · have hpads : hist.length ≤ j := by omega
      rcases (by omega : r = 0 ∨ r = 1) with hr0 | hr1
      · subst hr0
        rw [show p * kNumStoneFeatures + k
            = p * kNumStoneFeatures + 2 * j from by omega]
        rw [writePadsFrom_get_my hist.length _ p j hp hpads hj8]
        simp [encodedValue, hk16, hjh, hdiv]
      · subst hr1
        rw [show p * kNumStoneFeatures + k
            = p * kNumStoneFeatures + 2 * j + 1 from by omega]
        rw [writePadsFrom_get_their hist.length _ p j hp hpads hj8]
        simp [encodedValue, hk16, hjh, hdiv]

/-- Indices outside every point's per-stone block are never written. -/
lemma setFeatures_untouched {hist : List Stones} {toPlay : Color}
    {buf out : Buffer} (hout : setFeatures hist toPlay buf = some out)
    (i : Nat)
    (hi : ∀ p < kN * kN, ∀ k < kNumStoneFeatures, i ≠ p * kNumStoneFeatures + k) :
    out i = buf i := by
  have hlen := setFeatures_length_le hout
  rw [setFeatures_some_eq hout]
  rw [writePlayer_get_ne _ _ _ _ fun q hq => by
    have := hi q hq kPlayerFeature
      (by simp only [kNumStoneFeatures, kPlayerFeature, kMoveHistory]; omega)
    omega]
  rw [writePadsFrom_get_ne _ _ _ fun q hq jj h1 h2 => by
    have h0 := hi q hq (2 * jj)
      (by simp only [kNumStoneFeatures, kMoveHistory] at *; omega)
    have h1' := hi q hq (2 * jj + 1)
      (by simp only [kNumStoneFeatures, kMoveHistory] at *; omega)
    exact ⟨by omega, by omega⟩]
  exact writeHistory_get_ne _ _ _ _ _ _ fun q hq jj h1 h2 => by
    have h0 := hi q hq (2 * jj)
      (by simp only [kNumStoneFeatures, kMoveHistory] at *; omega)
    have h1' := hi q hq (2 * jj + 1)
      (by simp only [kNumStoneFeatures, kMoveHistory] at *; omega)
    exact ⟨by omega, by omega⟩

lemma emptyBoard_getD (p : Nat) : emptyBoard.getD p Color.empty = Color.empty := by
  by_cases h : p < kN * kN
  · rw [List.getD_eq_getElem _ _ (by simpa [emptyBoard] using h)]
    simp [emptyBoard]
  · rw [List.getD_eq_default _ _ (by simp [emptyBoard]; omega)]

lemma index_decompose {i : Nat} (hi : i < kNumBoardFeatures) :
    ∃ p k, p < kN * kN ∧ k < kNumStoneFeatures ∧
      i = p * kNumStoneFeatures + k := by
  refine ⟨i / kNumStoneFeatures, i % kNumStoneFeatures, ?_, ?_, ?_⟩ <;>
    · simp only [kNumBoardFeatures, kNumStoneFeatures, kMoveHistory, kN] at *
      omega

/-! ## Feature-encoder claims -/

/-- C7 counterexample: calling the encoder with an empty history is *not*
fatal — `DualNet::SetFeatures` only checks `history.size() <= kMoveHistory`,
so a zero-snapshot history passes the check and features are produced. -/
theorem c7_counterexample_empty_history_accepted :
    (setFeatures [] Color.black (fun i => 0)).isSome = true := rfl

/-- C7 (amended): the only history-size check in `SetFeatures` is the
oversize check: the call aborts exactly when the history has more than
`kMoveHistory` snapshots, and in particular an empty history is accepted
(its stone planes are then all padding). -/
theorem c7_only_oversize_history_aborts (toPlay : Color) (buf : Buffer) :
    (∀ hist : List Stones,
      setFeatures hist toPlay buf = none ↔ kMoveHistory < hist.length) ∧
    (setFeatures [] toPlay buf).isSome = true := by
  constructor
  · intro hist
    unfold setFeatures
    split
    · next hle => exact iff_of_false (by simp) (by omega)
    · next hgt => exact iff_of_true rfl (by omega)
  · unfold setFeatures
    split
    · rfl
    · next hgt => simp at hgt


/-- C8: for a history of exactly one empty 9×9 snapshot, every point's 16
stone-history planes are written 0 and the side-to-play plane is written 1
when black is to play and 0 when white is to play. -/
theorem c8_empty_board_features (toPlay : Color) (p k : Nat) (buf : Buffer)
    (hp : p < kN * kN) (hk : k < kPlayerFeature)
    (hc : toPlay = Color.black ∨ toPlay = Color.white) :
    ((setFeatures [emptyBoard] toPlay buf).getD buf)
        (p * kNumStoneFeatures + k) = 0 ∧
    ((setFeatures [emptyBoard] toPlay buf).getD buf)
        (p * kNumStoneFeatures + kPlayerFeature)
      = (if toPlay = Color.black then 1 else 0) := by
  obtain ⟨out, hout⟩ : ∃ out, setFeatures [emptyBoard] toPlay buf = some out := by
    simp [setFeatures, kMoveHistory]
  rw [hout]
  simp only [Option.getD_some]
  have hk17 : k < kNumStoneFeatures := by
    simp only [kNumStoneFeatures, kPlayerFeature, kMoveHistory] at hk ⊢
    omega
  constructor
  · rw [setFeatures_value hout p k hp hk17]
    simp only [encodedValue]
    rw [if_neg (by simp only [kPlayerFeature, kMoveHistory] at hk ⊢; omega)]
    by_cases hj : k / 2 < ([emptyBoard] : List Stones).length
    · rw [if_pos hj]
      have hk2 : k / 2 = 0 := by
        simp only [List.length_singleton] at hj
        omega
      rw [hk2]
      simp only [List.getD_cons_zero, emptyBoard_getD]
      rcases hc with hb | hw
      · subst hb
        split <;> rfl
      · subst hw
        split <;> rfl
    · rw [if_neg hj]
  · rw [setFeatures_value hout p kPlayerFeature hp
      (by simp only [kNumStoneFeatures, kPlayerFeature, kMoveHistory]; omega)]
    simp [encodedValue]

/-- Witness for C8 at black to play, point 0, plane 0, a zero buffer. -/
theorem c8_empty_board_features_witness :
    ((setFeatures [emptyBoard] Color.black (fun i => 0)).getD (fun i => 0))
        (0 * kNumStoneFeatures + 0) = 0 ∧
    ((setFeatures [emptyBoard] Color.black (fun i => 0)).getD (fun i => 0))
        (0 * kNumStoneFeatures + kPlayerFeature)
      = (if Color.black = Color.black then 1 else 0) :=
  c8_empty_board_features Color.black 0 0 (fun i => 0) (by decide) (by decide)
    (Or.inl rfl)

/-- C9: the encoder is deterministic and idempotent — a second call with the
same history and color, writing into the buffer the first call produced,
leaves the buffer bytes unchanged (determinism itself is definitional for
the pure embedding). -/
theorem c9_setFeatures_idempotent (hist : List Stones) (toPlay : Color)
    (buf out : Buffer) (hout : setFeatures hist toPlay buf = some out) :
    setFeatures hist toPlay out = some out := by
  have hlen := setFeatures_length_le hout
  obtain ⟨out2, hout2⟩ : ∃ o, setFeatures hist toPlay out = some o := by
    simp [setFeatures, hlen]
  rw [hout2]
  congr 1
  funext i
  by_cases hsmall : i < kNumBoardFeatures
  · obtain ⟨p, k, hp, hk, rfl⟩ := index_decompose hsmall
    rw [setFeatures_value hout2 p k hp hk, setFeatures_value hout p k hp hk]
  · exact setFeatures_untouched hout2 i fun q hq k hk => by
      simp only [kNumBoardFeatures, kNumStoneFeatures, kMoveHistory, kN] at *
      omega

/-- Witness for C9 on the empty history, white to play, zero buffer. -/
theorem c9_setFeatures_idempotent_witness :
    setFeatures [] Color.white
        ((setFeatures [] Color.white (fun i => 0)).getD (fun i => 0))
      = some ((setFeatures [] Color.white (fun i => 0)).getD (fun i => 0)) :=
  c9_setFeatures_idempotent [] Color.white (fun i => 0) _ rfl

/-- C10: `SetFeatures` overwrites all `kNumBoardFeatures` entries — for the
same history and color, two runs on arbitrary initial buffers agree on every
flat index of the output array, so nothing of the prior buffer contents
survives or leaks into it. -/
theorem c10_output_buffer_independent (hist : List Stones) (toPlay : Color)
    (b1 b2 out1 out2 : Buffer)
    (h1 : setFeatures hist toPlay b1 = some out1)
    (h2 : setFeatures hist toPlay b2 = some out2) :
    ∀ i < kNumBoardFeatures, out1 i = out2 i := by
  intro i hi
  obtain ⟨p, k, hp, hk, rfl⟩ := index_decompose hi
  rw [setFeatures_value h1 p k hp hk, setFeatures_value h2 p k hp hk]

set_option maxRecDepth 8000 in
/-- Witness for C10: a zero-filled and a 7-filled initial buffer give the
same entry at index 0 on the empty-board history. -/
theorem c10_output_buffer_independent_witness :
    ((setFeatures [emptyBoard] Color.black (fun i => 0)).getD (fun i => 0)) 0
      = ((setFeatures [emptyBoard] Color.black (fun i => 7)).getD (fun i => 7)) 0 :=
  c10_output_buffer_independent [emptyBoard] Color.black (fun i => 0)
    (fun i => 7) _ _ rfl rfl 0 (by decide)

/-! ## Scheduler lemmas -/

lemma queueFeatures_nil {F : Type} : queueFeatures ([] : List (InferenceData F)) = 0 := rfl

lemma queueFeatures_cons {F : Type} (r : InferenceData F) (q : List (InferenceData F)) :
    queueFeatures (r :: q) = r.features.length + queueFeatures q := by
  simp [queueFeatures]

lemma queueFeatures_append {F : Type} (q1 q2 : List (InferenceData F)) :
    queueFeatures (q1 ++ q2) = queueFeatures q1 + queueFeatures q2 := by
  simp [queueFeatures]

lemma queueFeatures_take_drop {F : Type} (q : List (InferenceData F)) (k : Nat) :
    queueFeatures (q.take k) + queueFeatures (q.drop k) = queueFeatures q := by
  rw [← queueFeatures_append, List.take_append_drop]

/-- The pop loop of `RunBatch` removes a prefix of the queue: the popped
requests are `q.take k` for some `k`, the queue keeps `q.drop k`, the popped
feature total fits in the slot, and (for non-empty requests) the first
unpopped request is exactly the one that no longer fits. -/
lemma popRequests_spec {F : Type} (t : Nat) (q : List (InferenceData F)) :
    ∃ k, (popRequests t q).1 = q.take k ∧ (popRequests t q).2 = q.drop k ∧
      queueFeatures (q.take k) ≤ t ∧
      ((∀ r ∈ q, 1 ≤ r.features.length) → ∀ hk : k < q.length,
        t < queueFeatures (q.take k) + q[k].features.length) := by
  induction q generalizing t with
  | nil =>
    exact ⟨0, rfl, rfl, by simp [queueFeatures], fun _ hk => absurd hk (by simp)⟩
  | cons r rest ih =>
    by_cases h0 : t = 0
    · subst h0
      refine ⟨0, by simp [popRequests], by simp [popRequests], by simp [queueFeatures], ?_⟩
      intro hsz hk
      have hr := hsz r (List.mem_cons_self r rest)
      simpa [queueFeatures] using hr
    · by_cases hbig : r.features.length > t
      · refine ⟨0, ?_, ?_, by simp [queueFeatures], ?_⟩
        · simp [popRequests, h0, hbig]
        · simp [popRequests, h0, hbig]
        · intro _ hk
          simpa [queueFeatures] using hbig
      · obtain ⟨k, h1, h2, h3, h4⟩ := ih (t - r.features.length)
        refine ⟨k + 1, ?_, ?_, ?_, ?_⟩
        · simp [popRequests, h0, hbig, h1]
        · simp [popRequests, h0, hbig, h2]
        · rw [List.take_succ_cons, queueFeatures_cons]
          omega
        · intro hsz hk
          have h4' := h4 (fun x hx => hsz x (List.mem_cons_of_mem r hx))
            (by simpa using hk)
          rw [List.take_succ_cons, queueFeatures_cons, List.getElem_cons_succ]
          omega

lemma sliceResults_length {P V : Type} (model : String) (counts : List Nat)
    (ps : List P) (vs : List V) :
    (sliceResults model counts ps vs).length = counts.length := by
  induction counts generalizing ps vs with
  | nil => rfl
  | cons c cs ih => simp [sliceResults, ih]

/-- The two-cursor fan-out hands submission `i` exactly the slice of the
batch outputs starting at the sum of the preceding feature counts. -/
lemma sliceResults_getElem? {P V : Type} (model : String) (counts : List Nat)
    (ps : List P) (vs : List V) (i : Nat) (hi : i < counts.length) :
    (sliceResults model counts ps vs)[i]?
      = some ⟨(ps.drop (counts.take i).sum).take (counts.getD i 0),
              (vs.drop (counts.take i).sum).take (counts.getD i 0), model⟩ := by
  induction counts generalizing ps vs i with
  | nil => simp at hi
  | cons c cs ih =>
    cases i with
    | zero => simp [sliceResults]
    | succ k =>
      have hrec := ih (ps.drop c) (vs.drop c) k (by simpa using hi)
      simp only [sliceResults, List.getElem?_cons_succ]
      rw [hrec]
      simp [List.drop_drop, Nat.add_comm]

lemma take_sum_add_le (counts : List Nat) (i : Nat) (hi : i < counts.length) :
    (counts.take i).sum + counts.getD i 0 ≤ counts.sum := by
  have hgd : counts.getD i 0 = counts[i] := List.getD_eq_getElem counts 0 hi
  have h2 : (counts.take i).sum + (counts.drop i).sum = counts.sum := by
    rw [← List.sum_append, List.take_append_drop]
  have hdrop : counts.drop i = counts[i] :: counts.drop (i + 1) :=
    List.drop_eq_getElem_cons hi
  rw [hdrop, List.sum_cons] at h2
  omega

lemma runBatch_numRuns {F P V : Type} (net : List F → NetResult P V)
    (t : Nat) (s : SchedulerState F) :
    (runBatch net t s).state.numRuns = s.numRuns + 1 := rfl

lemma maybeRunBatches_numRuns_le {F P V : Type} (net : List F → NetResult P V)
    (batchSize fuel : Nat) (s : SchedulerState F) :
    s.numRuns ≤ (maybeRunBatches net batchSize fuel s).1.numRuns := by
  induction fuel generalizing s with
  | zero => exact Nat.le_refl _
  | succ f ih =>
    simp only [maybeRunBatches]
    split
    · exact Nat.le_refl _
    · split
      · exact Nat.le_refl _
      · exact Nat.le_trans (Nat.le_succ _)
          (ih (runBatch net ((s.queueCounter - s.runCounter) ⊓ batchSize) s).state)

lemma runBatch_invariant {F P V : Type} (net : List F → NetResult P V)
    (t : Nat) (s : SchedulerState F) (hinv : schedInvariant s) :
    schedInvariant (runBatch net t s).state := by
  obtain ⟨k, h1, h2, h3, _⟩ := popRequests_spec t s.inferenceQueue
  obtain ⟨hle, hsum⟩ := hinv
  have htd := queueFeatures_take_drop s.inferenceQueue k
  constructor
  · show s.runCounter + ((popRequests t s.inferenceQueue).1.map
      (fun d => d.features.length)).sum ≤ s.queueCounter
    have : ((popRequests t s.inferenceQueue).1.map
        (fun d => d.features.length)).sum = queueFeatures (s.inferenceQueue.take k) := by
      rw [h1]; rfl
    omega
  · show s.queueCounter - (s.runCounter + ((popRequests t s.inferenceQueue).1.map
      (fun d => d.features.length)).sum)
      = queueFeatures (popRequests t s.inferenceQueue).2
    have hpop : ((popRequests t s.inferenceQueue).1.map
        (fun d => d.features.length)).sum = queueFeatures (s.inferenceQueue.take k) := by
      rw [h1]; rfl
    rw [h2]
    omega

lemma maybeRunBatches_invariant {F P V : Type} (net : List F → NetResult P V)
    (batchSize fuel : Nat) (s : SchedulerState F) (hinv : schedInvariant s) :
    schedInvariant (maybeRunBatches net batchSize fuel s).1 := by
  induction fuel generalizing s with
  | zero => exact hinv
  | succ f ih =>
    simp only [maybeRunBatches]
    split
    · exact hinv
    · split
      · exact hinv
      · exact ih _ (runBatch_invariant net _ s hinv)

lemma pendingClients_of_nodup {F : Type} (q : List (InferenceData F))
    (h : (q.map (fun d => d.clientId)).Nodup) :
    pendingClients q = q.length := by
  unfold pendingClients
  rw [List.Nodup.dedup h, List.length_map]

/-! ## Scheduler claims -/

/-- C1: the spec's submission precondition is `1 ≤ n ≤ B`; the
`batching_dual_net.cc` variant checks exactly that an oversize submission
aborts (`num_features <= batch_size` must hold), but the sibling
`batching_service.cc` line 64 inverts the check to `num_features >=
batch_size`, so a well-formed submission of 1 feature under the default
`B = 1024` aborts there — the code slip the spec's open question records. -/
theorem c1_submission_check_code_bug :
    serviceRunManyEnqueue 1024 0 [(0 : Nat)] ⟨0, [], 0, 0, 0⟩ = none ∧
    runManyEnqueue 1024 0 [(0 : Nat)] ⟨0, [], 0, 0, 0⟩
      = some ⟨0, [⟨0, [0]⟩], 1, 0, 0⟩ ∧
    1 ≤ [(0 : Nat)].length ∧ [(0 : Nat)].length ≤ 1024 := by
  decide

/-- C2: on each batch-formation attempt with `target = min(queueSum −
runSum, B)`: if `target < B` and some counted client has no pending request
(queue holds fewer distinct clients than the census; with one submission per
blocked client the queue length is exactly that count), the scheduler waits,
changing nothing; otherwise, if any features are waiting, a batch is
dispatched. -/
theorem c2_batch_formation_gate {F P V : Type} (net : List F → NetResult P V)
    (batchSize fuel : Nat) (s : SchedulerState F) (hfuel : 0 < fuel)
    (hids : (s.inferenceQueue.map (fun d => d.clientId)).Nodup) :
    (min (s.queueCounter - s.runCounter) batchSize < batchSize ∧
        pendingClients s.inferenceQueue < s.numClients →
      maybeRunBatches net batchSize fuel s = (s, [])) ∧
    (0 < min (s.queueCounter - s.runCounter) batchSize →
      ¬(min (s.queueCounter - s.runCounter) batchSize < batchSize ∧
          pendingClients s.inferenceQueue < s.numClients) →
      s.numRuns < (maybeRunBatches net batchSize fuel s).1.numRuns) := by
  obtain ⟨f, rfl⟩ : ∃ f, fuel = f + 1 := ⟨fuel - 1, by omega⟩
  have hpc := pendingClients_of_nodup s.inferenceQueue hids
  constructor
  · rintro ⟨hshort, hwait⟩
    simp only [maybeRunBatches]
    split
    · rfl
    · split
      · rfl
      · next hcond => exact absurd ⟨hshort, by omega⟩ hcond
  · intro hpos hnot
    simp only [maybeRunBatches]
    split
    · next h0 => omega
    · split
      · next hcond => exact absurd ⟨hcond.1, by omega⟩ hnot
      · have hmono := maybeRunBatches_numRuns_le net batchSize f
          (runBatch net (min (s.queueCounter - s.runCounter) batchSize) s).state
        have hrb : (runBatch net
            (min (s.queueCounter - s.runCounter) batchSize) s).state.numRuns
          = s.numRuns + 1 := rfl
        show s.numRuns < (maybeRunBatches net batchSize f
          (runBatch net (min (s.queueCounter - s.runCounter) batchSize) s).state).1.numRuns
        omega

/-- Witness for C2 on a state with two counted clients and one pending
3-feature submission under batch size 4: the wait condition holds, and
indeed the scheduler leaves the state untouched. -/
theorem c2_batch_formation_gate_witness :
    (min (exWaitState.queueCounter - exWaitState.runCounter) 4 < 4 ∧
        pendingClients exWaitState.inferenceQueue < exWaitState.numClients →
      maybeRunBatches exNet 4 1 exWaitState = (exWaitState, [])) ∧
    (0 < min (exWaitState.queueCounter - exWaitState.runCounter) 4 →
      ¬(min (exWaitState.queueCounter - exWaitState.runCounter) 4 < 4 ∧
          pendingClients exWaitState.inferenceQueue < exWaitState.numClients) →
      exWaitState.numRuns < (maybeRunBatches exNet 4 1 exWaitState).1.numRuns) :=
  c2_batch_formation_gate exNet 4 1 exWaitState (by decide) (by decide)

/-- C3: batch assembly pops whole requests off the queue head in FIFO order
— the popped set is a prefix `take k`, the queue keeps the suffix `drop k`
(nothing is skipped), the dispatched features are exactly the concatenation
of the popped requests' feature lists, their total fits the target, and
assembly stopped only because the next head request would overflow it. -/
theorem c3_fifo_atomic_pop {F P V : Type} (net : List F → NetResult P V)
    (t : Nat) (s : SchedulerState F)
    (hsz : ∀ r ∈ s.inferenceQueue, 1 ≤ r.features.length) :
    ∃ k, (runBatch net t s).state.inferenceQueue = s.inferenceQueue.drop k ∧
      (runBatch net t s).dispatchedFeatures
        = ((s.inferenceQueue.take k).map (fun d => d.features)).flatten ∧
      queueFeatures (s.inferenceQueue.take k) ≤ t ∧
      (∀ hk : k < s.inferenceQueue.length,
        t < queueFeatures (s.inferenceQueue.take k)
          + s.inferenceQueue[k].features.length) := by
  obtain ⟨k, h1, h2, h3, h4⟩ := popRequests_spec t s.inferenceQueue
  refine ⟨k, ?_, ?_, h3, h4 hsz⟩
  · show (popRequests t s.inferenceQueue).2 = _
    exact h2
  · show ((popRequests t s.inferenceQueue).1.map (fun d => d.features)).flatten = _
    rw [h1]

/-- Witness for C3 on `exState` with target 2: the size-1 head request is
popped, the size-2 request no longer fits and stays at the head. -/
theorem c3_fifo_atomic_pop_witness :
    ∃ k, (runBatch exNet 2 exState).state.inferenceQueue
        = exState.inferenceQueue.drop k ∧
      (runBatch exNet 2 exState).dispatchedFeatures
        = ((exState.inferenceQueue.take k).map (fun d => d.features)).flatten ∧
      queueFeatures (exState.inferenceQueue.take k) ≤ 2 ∧
      (∀ hk : k < exState.inferenceQueue.length,
        2 < queueFeatures (exState.inferenceQueue.take k)
          + exState.inferenceQueue[k].features.length) :=
  c3_fifo_atomic_pop exNet 2 exState (by decide)

/-- C4: the counter invariant `runSum ≤ queueSum ∧ queueSum − runSum =
features pending in the queue` is preserved by the submit enqueue, by the pops
of a batch run, and hence by the whole batch-formation loop. -/
theorem c4_counter_invariant {F P V : Type} (net : List F → NetResult P V)
    (batchSize clientId fuel t : Nat) (features : List F)
    (s s2 : SchedulerState F) (hinv : schedInvariant s)
    (henq : runManyEnqueue batchSize clientId features s = some s2) :
    schedInvariant s2 ∧ schedInvariant (runBatch net t s).state ∧
    schedInvariant (maybeRunBatches net batchSize fuel s).1 := by
  refine ⟨?_, runBatch_invariant net t s hinv,
    maybeRunBatches_invariant net batchSize fuel s hinv⟩
  unfold runManyEnqueue at henq
  split at henq
  · obtain ⟨hle, hsum⟩ := hinv
    cases henq
    constructor
    · show s.runCounter ≤ s.queueCounter + features.length
      omega
    · show s.queueCounter + features.length - s.runCounter
        = queueFeatures (s.inferenceQueue ++ [⟨clientId, features⟩])
      rw [queueFeatures_append, queueFeatures_cons, queueFeatures_nil]
      have hfl : (⟨clientId, features⟩ : InferenceData F).features.length
          = features.length := rfl
      omega
  · exact absurd henq (by simp)

/-- Witness for C4 on `exState`: enqueueing a size-1 submission under batch
size 4, then letting the scheduler run, keeps the invariant. -/
theorem c4_counter_invariant_witness :
    schedInvariant exState2 ∧ schedInvariant (runBatch exNet 2 exState).state ∧
    schedInvariant (maybeRunBatches exNet 4 1 exState).1 :=
  c4_counter_invariant exNet 4 2 1 2 [7] exState exState2
    (by constructor <;> decide) (by decide)

lemma writeFront_length {F : Type} (xs tensor : List F)
    (h : xs.length ≤ tensor.length) :
    (writeFront xs tensor).length = tensor.length := by
  simp [writeFront]
  omega

/-- The fan-out slicing reads nothing beyond the first `counts.sum` entries
of either output sequence. -/
lemma sliceTf_take_congr {P V : Type} (counts : List Nat) (ps ps' : List P)
    (vs vs' : List V)
    (hp : ps.take counts.sum = ps'.take counts.sum)
    (hv : vs.take counts.sum = vs'.take counts.sum) :
    sliceTf counts ps vs = sliceTf counts ps' vs' := by
  induction counts generalizing ps ps' vs vs' with
  | nil => rfl
  | cons c cs ih =>
    have hc : c ≤ (c :: cs).sum := by
      simp only [List.sum_cons]
      omega
    have h1 : ps.take c = ps'.take c := by
      have h := congrArg (List.take c) hp
      rw [List.take_take, List.take_take, Nat.min_eq_left hc] at h
      exact h
    have h2 : vs.take c = vs'.take c := by
      have h := congrArg (List.take c) hv
      rw [List.take_take, List.take_take, Nat.min_eq_left hc] at h
      exact h
    have h3 : (ps.drop c).take cs.sum = (ps'.drop c).take cs.sum := by
      have h := congrArg (List.drop c) hp
      rw [List.drop_take, List.drop_take] at h
      simpa [List.sum_cons, Nat.add_sub_cancel_left] using h
    have h4 : (vs.drop c).take cs.sum = (vs'.drop c).take cs.sum := by
      have h := congrArg (List.drop c) hv
      rw [List.drop_take, List.drop_take] at h
      simpa [List.sum_cons, Nat.add_sub_cancel_left] using h
    simp only [sliceTf]
    rw [h1, h2]
    congr 1
    exact ih _ _ _ _ h3 h4

/-- C5 counterexample: under batch size `B = 4`, the 3-feature
submission of a lone client is dispatched (census satisfied, one batch runs), yet the feature
list the scheduler hands the engine has 3 entries, not `B` — the scheduler
itself pads nothing. -/
theorem c5_counterexample_scheduler_does_not_pad :
    (maybeRunBatches exNet 4 2 exShortState).1.numRuns = 1 ∧
    (runBatch exNet
        (min (exShortState.queueCounter - exShortState.runCounter) 4)
        exShortState).dispatchedFeatures.length = 3 ∧
    (3 : Nat) ≠ 4 := by
  decide

/-- C5 (amended): the batch dimension of exactly `B` is realized by the
engine worker, not the scheduler: the worker copies the (possibly shorter)
dispatched batch over the front of its pre-allocated `B`-sized input tensor,
so the session always executes on exactly `B` feature arrays, and the
delivered per-client results depend only on the outputs for the dispatched
features — entries in the padding region never reach any client. -/
theorem c5_engine_batch_exactly_B {F P V : Type}
    (session session2 : List F → List P × List V) (batchSize : Nat)
    (inputTensor : List F) (featureVecs : List (List F))
    (hTensor : inputTensor.length = batchSize)
    (hFit : featureVecs.flatten.length ≤ batchSize)
    (hpEq : (session2 (writeFront featureVecs.flatten inputTensor)).1.take
          featureVecs.flatten.length
        = (session (writeFront featureVecs.flatten inputTensor)).1.take
          featureVecs.flatten.length)
    (hvEq : (session2 (writeFront featureVecs.flatten inputTensor)).2.take
          featureVecs.flatten.length
        = (session (writeFront featureVecs.flatten inputTensor)).2.take
          featureVecs.flatten.length) :
    (tfWorkerRunMany session inputTensor featureVecs).1.length = batchSize ∧
    (tfWorkerRunMany session2 inputTensor featureVecs).2
      = (tfWorkerRunMany session inputTensor featureVecs).2 := by
  have hsum : (featureVecs.map List.length).sum = featureVecs.flatten.length :=
    (List.length_flatten featureVecs).symm
  constructor
  · show (writeFront featureVecs.flatten inputTensor).length = batchSize
    rw [writeFront_length _ _ (by omega)]
    exact hTensor
  · show sliceTf (featureVecs.map List.length)
        (session2 (writeFront featureVecs.flatten inputTensor)).1
        (session2 (writeFront featureVecs.flatten inputTensor)).2
      = sliceTf (featureVecs.map List.length)
        (session (writeFront featureVecs.flatten inputTensor)).1
        (session (writeFront featureVecs.flatten inputTensor)).2
    exact sliceTf_take_congr _ _ _ _ _ (by rw [hsum]; exact hpEq)
      (by rw [hsum]; exact hvEq)

/-- Witness for the amended C5: tensor `[0,0]` (B = 2), one 1-feature
submission; a second session disagreeing with the first only on the padding
output still yields identical deliveries. -/
theorem c5_engine_batch_exactly_B_witness :
    (tfWorkerRunMany exSession [0, 0] [[5]]).1.length = 2 ∧
    (tfWorkerRunMany exSession2 [0, 0] [[5]]).2
      = (tfWorkerRunMany exSession [0, 0] [[5]]).2 :=
  c5_engine_batch_exactly_B exSession exSession2 2 [0, 0] [[5]]
    (by decide) (by decide) (by decide) (by decide)

/-- C6: in any dispatched batch, the request popped at position `i` receives
a `Result` whose policies and values are exactly the contiguous slices of
the batch outputs of the engine starting at the sum of the feature counts of
the previous requests, with exactly the own feature count of that request as length — and thus
no entry belonging to any other submission. -/
theorem c6_fanout_isolation {F P V : Type} (net : List F → NetResult P V)
    (t : Nat) (s : SchedulerState F) (i : Nat)
    (hi : i < (popRequests t s.inferenceQueue).1.length)
    (hp : queueFeatures (popRequests t s.inferenceQueue).1
        ≤ (net (runBatch net t s).dispatchedFeatures).policies.length)
    (hv : queueFeatures (popRequests t s.inferenceQueue).1
        ≤ (net (runBatch net t s).dispatchedFeatures).values.length) :
    let counts := (popRequests t s.inferenceQueue).1.map
      (fun d => d.features.length)
    let res := net (runBatch net t s).dispatchedFeatures
    let n := counts.getD i 0
    let offset := (counts.take i).sum
    (runBatch net t s).deliveries.length
        = (popRequests t s.inferenceQueue).1.length ∧
    (runBatch net t s).deliveries[i]?
        = some ⟨(res.policies.drop offset).take n,
            (res.values.drop offset).take n, res.model⟩ ∧
    ((res.policies.drop offset).take n).length = n ∧
    ((res.values.drop offset).take n).length = n := by
  intro counts res n offset
  have hci : i < counts.length := by
    simpa [counts] using hi
  have hqf : queueFeatures (popRequests t s.inferenceQueue).1 = counts.sum := rfl
  have hofs : offset + n ≤ counts.sum := by
    simpa [offset, n] using take_sum_add_le counts i hci
  have hp2 : counts.sum ≤ res.policies.length := by
    rw [← hqf]
    exact hp
  have hv2 : counts.sum ≤ res.values.length := by
    rw [← hqf]
    exact hv
  refine ⟨?_, ?_, ?_, ?_⟩
  · show (sliceResults res.model counts res.policies res.values).length = _
    rw [sliceResults_length, List.length_map]
  · show (sliceResults res.model counts res.policies res.values)[i]? = _
    exact sliceResults_getElem? res.model counts res.policies res.values i hci
  · rw [List.length_take, List.length_drop]
    omega
  · rw [List.length_take, List.length_drop]
    omega

/-- Witness for C6 on `exState` with target 2: the single popped request
(1 feature from client 0) receives the first policy and value. -/
theorem c6_fanout_isolation_witness :
    let counts := (popRequests 2 exState.inferenceQueue).1.map
      (fun d => d.features.length)
    let res := exNet (runBatch exNet 2 exState).dispatchedFeatures
    let n := counts.getD 0 0
    let offset := (counts.take 0).sum
    (runBatch exNet 2 exState).deliveries.length
        = (popRequests 2 exState.inferenceQueue).1.length ∧
    (runBatch exNet 2 exState).deliveries[0]?
        = some ⟨(res.policies.drop offset).take n,
            (res.values.drop offset).take n, res.model⟩ ∧
    ((res.policies.drop offset).take n).length = n ∧
    ((res.values.drop offset).take n).length = n :=
  c6_fanout_isolation exNet 2 exState 0 (by decide) (by decide) (by decide)

end Minigo
